import Mathlib

/-!
Verification development for the biscuit-component-wasm reconciliation engine
(`src/lib.rs`).  The file embeds the position-mapping functions byte for byte
and the `execute_inner` pipeline parameterised over its external collaborators
(the biscuit-auth parser/builder/verifier and the seeded RNG), which the
design treats as opaque services called at an interface boundary.

Texts are modelled as lists of bytes (`Nat`), spans as an offset/length pair
into the owning text (spans are identified by reference in the Rust code, so
an offset is the faithful rendering), and fallible operations return
`Option`, with `none` standing for a panic (`unwrap` failure).
-/

namespace Biscuit

/-- A text is a byte string; `10` is the byte `b'\n'`. -/
abbrev Text := List Nat

/-- Embeds struct `SourcePosition` (lib.rs:62-68). -/
structure SourcePosition where
  line_start : Nat
  column_start : Nat
  line_end : Nat
  column_end : Nat
deriving DecidableEq

/-- Rust `Iterator::position`: index of the first element satisfying `f`. -/
def position (f : Nat → Bool) : List Nat → Option Nat
  | [] => none
  | b :: rest => if f b then some 0 else (position f rest).map (· + 1)

/-- `prefix.iter().filter(|&&b| b == b'\n').count()` (lib.rs:339, 364):
the number of newline bytes in the given byte slice. -/
def countNl (p : Text) : Nat := (p.filter (fun b => b == 10)).length

/-- `prefix.iter().rev().position(|&b| b == b'\n').map(|pos| offset - pos)
.unwrap_or(0)` (lib.rs:343-348, 368-373): the offset just after the last
newline of the slice, or `0` when the slice holds no newline.  Here the
argument is the prefix itself, whose length is the Rust `offset`. -/
def lineBegin (p : Text) : Nat :=
  match position (fun b => b == 10) p.reverse with
  | some pos => p.length - pos
  | none => 0

/-- Byte offset at which (zero-based) line `n` of `t` starts: `0` for line 0,
otherwise the position just after the `n`-th newline.  This is the line/column
to byte-offset conversion used to state the re-slicing property of the spec
(`§8`, first bullet); it is the inverse reading of the line/column coordinates
produced by `get_position`. -/
def lineStartOffset : Text → Nat → Nat
  | _, 0 => 0
  | [], _ + 1 => 0
  | b :: rest, n + 1 =>
    if b == 10 then 1 + lineStartOffset rest n else 1 + lineStartOffset rest (n + 1)

/-- Embeds `get_position` (lib.rs:334-391).  The span is given by reference:
`off` is `input.offset(span)` and `len` is `span.len()`.

* `line_start`/`line_end` count the newlines in the first `off`
  (resp. `off + len`) bytes of `input` (lib.rs:339, 364).
* `column_start` is `line.offset(span)`.  nom's `Offset` is pointer
  subtraction, so this equals `off - line_begin` regardless of the
  `lines().next().trim_end()` computation on lib.rs:351-355, which only
  shortens the line from the right and never moves its start pointer.
* `column_end` is `line.offset(&span[span.len()..]) + 1`, i.e.
  `(off + len) - line_begin_of_end + 1`, by the same pointer arithmetic
  (lib.rs:376-383). -/
def get_position (input : Text) (off len : Nat) : SourcePosition :=
  let line_start := countNl (input.take off)
  let line_begin1 := lineBegin (input.take off)
  let column_start := off - line_begin1
  let off2 := off + len
  let line_end := countNl (input.take off2)
  let line_begin2 := lineBegin (input.take off2)
  let column_end := off2 - line_begin2 + 1
  ⟨line_start, column_start, line_end, column_end⟩

/-- The bytes of the span `(off, len)` of `t`. -/
def spanBytes (t : Text) (off len : Nat) : Text := (t.drop off).take len

/-- Re-slice `t` from `(line_start, column_start)` to
`(line_end, column_end - 1)`, converting the line/column coordinates back to
byte offsets.  Used to state the round-trip property of spec §8. -/
def reslice (t : Text) (p : SourcePosition) : Text :=
  let s := lineStartOffset t p.line_start + p.column_start
  let e := lineStartOffset t p.line_end + (p.column_end - 1)
  (t.drop s).take (e - s)

/-- Embeds struct `Marker` (lib.rs:50-54). -/
structure Marker where
  ok : Bool
  position : SourcePosition
deriving DecidableEq

/-- Embeds struct `ParseError` (lib.rs:56-60); the message is a byte string. -/
structure ParseError where
  message : Text
  position : SourcePosition
deriving DecidableEq

/-- Embeds struct `Editor` (lib.rs:44-48). -/
structure Editor where
  errors : List ParseError
  markers : List Marker
deriving DecidableEq

/-- `Editor::default()`. -/
def Editor.default : Editor := ⟨[], []⟩

/-- Embeds struct `Fact` (lib.rs:70-74). -/
structure Fact where
  name : Text
  terms : List Text
deriving DecidableEq

/-- Embeds struct `BiscuitQuery` (lib.rs:27-32). -/
structure BiscuitQuery where
  token_blocks : List Text
  verifier_code : Option Text
  query : Option Text
deriving DecidableEq

/-- Embeds struct `BiscuitResult` (lib.rs:34-42). -/
structure BiscuitResult where
  token_blocks : List Editor
  token_content : Text
  verifier_editor : Option Editor
  verifier_result : Option Text
  verifier_world : List Fact
  query_result : List Fact
deriving DecidableEq

/-- Embeds struct `Block` (lib.rs:393-398). -/
structure Block where
  code : Text
  checks : List (SourcePosition × Bool)
  enabled : Bool
deriving DecidableEq

/-- `Block::default()` (lib.rs:400-408). -/
def Block.default : Block := ⟨[], [], true⟩

/-- One statement (fact, rule, check or policy) as emitted by the external
parser: its span inside the block text, plus the external builder/verifier's
verdict on registering it (`regOk = false` models a registration call whose
`Result` is an error, which the Rust code hits with `.unwrap()`). -/
structure Stmt where
  off : Nat
  len : Nat
  regOk : Bool
deriving DecidableEq

/-- Embeds `biscuit_auth::parser::Error` at the interface boundary: the
offending sub-span (`e.input`, by reference), the optional message and the
`Debug` rendering of the structured code (`e.code`). -/
structure PError where
  off : Nat
  len : Nat
  message : Option Text
  code : Text
deriving DecidableEq

/-- The successful output of `parse_source`: facts, rules, checks and
policies, each paired with its originating span (here inside `Stmt`). -/
structure SourceResult where
  facts : List Stmt
  rules : List Stmt
  checks : List Stmt
  policies : List Stmt
deriving DecidableEq

/-- `parse_source`'s result (lib.rs:103, 136, 185). -/
inductive ParseOutcome where
  | ok (res : SourceResult)
  | err (errors : List PError)
deriving DecidableEq

/-- A fact as dumped by the verifier (`builder::Fact`): a name and the list
of its identifiers, which `execute_inner` stringifies one by one. -/
structure BFact where
  name : Text
  ids : List Nat
deriving DecidableEq

/-- Embeds `error::FailedCheck` (lib.rs:236-246): either a verifier-local
check or a block check identified by numeric block/check ordinals. -/
inductive FailedCheckE where
  | verifier (check_id : Nat)
  | block (block_id : Nat) (check_id : Nat)
deriving DecidableEq

/-- The `error::Token` outcomes `execute_inner` distinguishes
(lib.rs:232-270): `FailedLogic(FailedChecks v)`, `FailedLogic(Deny idx)`,
and every other error (the catch-all `_ => {}` arm), keyed by an abstract
code. -/
inductive TokenError where
  | failedChecks (v : List FailedCheckE)
  | deny (idx : Nat)
  | other (code : Nat)
deriving DecidableEq

/-- `verifier.verify_with_limits(limits)`'s result: `Ok(policy index)` or an
error token. -/
inductive TokenResult where
  | ok (idx : Nat)
  | err (e : TokenError)
deriving DecidableEq

/-- `verifier.query(..)`'s result. -/
inductive QueryOutcome where
  | ok (facts : List BFact)
  | err (code : Nat)
deriving DecidableEq

/-- The external collaborators (spec §6): parser, token builder/crypto, and
logic evaluator, plus the seeded RNG.  Opaque values (key pairs, tokens,
verifier handles, RNG states) are natural-number handles; each function
models one capability called by `execute_inner`.  The evaluator functions
receive the verifier base (bound token or fresh verifier) and every
statement registered into the verifier, which is all the state the Rust
verifier has accumulated when they run. -/
structure Env where
  parse : Text → ParseOutcome
  newKeypair : Nat → Nat × Nat
  pubKey : Nat → Nat
  buildToken : Nat → List Stmt → Nat → Nat × Nat
  appendToken : Nat → Nat → List Stmt → Nat → Nat × Nat
  printToken : Nat → Text
  verifierFromToken : Nat → Nat → Nat
  newVerifier : Nat
  evalVerifier : Nat → List Stmt → TokenResult
  dumpWorld : Nat → List Stmt → List BFact
  runQuery : Nat → List Stmt → Text → QueryOutcome
  termToString : Nat → Text
  renderError : TokenError → Text
  renderPErrors : List PError → Text

/-- `format!("error: {:?}", e.code)` (lib.rs:416): the bytes of `"error: "`
followed by the code's rendering. -/
def renderErrCode (code : Text) : Text := [101, 114, 114, 111, 114, 58, 32] ++ code

/-- Embeds `get_parse_errors` (lib.rs:410-423): one positioned `ParseError`
per failure, in the order supplied, the message defaulting to the rendered
code. -/
def get_parse_errors (input : Text) (errors : List PError) : List ParseError :=
  errors.map fun e =>
    ⟨e.message.getD (renderErrCode e.code), get_position input e.off e.len⟩

/-- The chain of `.unwrap()`ed registration calls for the statements of one
successfully parsed block (lib.rs:109-121, 142-154, 198-218): `none` (panic)
as soon as one statement is rejected by the builder/verifier. -/
def registerStmts (ss : List Stmt) : Option Unit :=
  if ss.all (fun s => s.regOk) then some () else none

/-- The per-check bookkeeping of a parsed block (lib.rs:117-121, 150-154,
206-211): each check's resolved position paired with the initial optimistic
`true` ("checks are marked as success until they fail"). -/
def mkChecks (code : Text) (checks : List Stmt) : List (SourcePosition × Bool) :=
  checks.map fun c => (get_position code c.off c.len, true)

/-- Output of assembling one block: its editor, its check bookkeeping and
the statements registered into the builder. -/
structure Assembled where
  editor : Editor
  block : Block
  stmts : List Stmt
deriving DecidableEq

/-- One `match parse_source(..)` arm pair (lib.rs:103-123 for the authority
block, lib.rs:136-156 for extension blocks): on failure the editor carries
the converted parse errors and the block stays empty; on success every
statement is registered (`none` on a rejected one) and every check is
recorded with flag `true`. -/
def assembleBlock (env : Env) (code : Text) : Option Assembled :=
  match env.parse code with
  | ParseOutcome.err errors =>
      some ⟨⟨get_parse_errors code errors, []⟩, Block.default, []⟩
  | ParseOutcome.ok pr =>
      match registerStmts (pr.facts ++ pr.rules ++ pr.checks) with
      | none => none
      | some _ =>
          some ⟨Editor.default, ⟨[], mkChecks code pr.checks, true⟩,
                pr.facts ++ pr.rules ++ pr.checks⟩

/-- The loop over `query.token_blocks[1..]` (lib.rs:129-164): per block a
fresh keypair from the RNG, a block builder, assembly, and
`append_with_rng(..).unwrap()`.  Returns the editors, the check bookkeeping
blocks, the generated per-block keypairs, the final token and RNG state. -/
def processRest (env : Env) :
    List Text → Nat → Nat → Option (List Editor × List Block × List Nat × Nat × Nat)
  | [], token, rng => some ([], [], [], token, rng)
  | code :: more, token, rng =>
      let kp := env.newKeypair rng
      (assembleBlock env code).bind fun asm =>
        let tk := env.appendToken token kp.1 asm.stmts kp.2
        (processRest env more tk.1 tk.2).map fun r =>
          (asm.editor :: r.1, asm.block :: r.2.1, kp.1 :: r.2.2.1, r.2.2.2.1, r.2.2.2.2)

/-- Everything the token-building half of `execute_inner` (lib.rs:90-172)
produces: the per-block editors, the rendered token content, the authority
and extension check bookkeeping, the built token (if any), the root keypair,
the per-block keypairs and the final RNG state. -/
structure TokenStageOut where
  editors : List Editor
  content : Text
  authority : Block
  blocks : List Block
  tokenOpt : Option Nat
  root : Nat
  tempKeypairs : List Nat
  rng : Nat
deriving DecidableEq

/-- Embeds lib.rs:90-172: seed the RNG, generate the root keypair, and if
`token_blocks` is non-empty assemble the authority block, build the token,
process the extension blocks and render the token (`token.print()`). -/
def tokenStage (env : Env) (seed : Nat) (token_blocks : List Text) :
    Option TokenStageOut :=
  let rp := env.newKeypair seed
  match token_blocks with
  | [] => some ⟨[], [], Block.default, [], none, rp.1, [], rp.2⟩
  | t0 :: rest =>
      (assembleBlock env t0).bind fun asm =>
        let bt := env.buildToken rp.1 asm.stmts rp.2
        (processRest env rest bt.1 bt.2).map fun r =>
          ⟨asm.editor :: r.1, env.printToken r.2.2.2.1, asm.block, r.2.1,
           some r.2.2.2.1, rp.1, r.2.2.1, r.2.2.2.2⟩

/-- The local reconciliation state of `execute_inner`, exposed alongside the
response so theorems can speak about the check tables the markers are built
from: the post-reconciliation authority/extension/verifier check lists, the
policy position list, the evaluation outcome (`none` when
`verify_with_limits` never ran), the built token, and the key material. -/
structure Internals where
  authority : Block
  blocks : List Block
  verifier_checks : List (SourcePosition × Bool)
  verifier_policies : List SourcePosition
  outcome : Option TokenResult
  tokenOpt : Option Nat
  root : Nat
  tempKeypairs : List Nat
deriving DecidableEq

/-- `list[check_id].1 = false` (lib.rs:240, 252): sets the pass flag of entry
`i` to `false`, `none` (panic) when the index is out of bounds. -/
def setFlag (l : List (SourcePosition × Bool)) (i : Nat) :
    Option (List (SourcePosition × Bool)) :=
  match l[i]? with
  | some pb => some (l.set i (pb.1, false))
  | none => none

/-- The loop over the reported failed checks (lib.rs:234-255): a
verifier-local failure flips `verifier_checks[check_id]`; a block failure
flips the authority's check when `block_id == 0` and
`blocks[block_id - 1]`'s check otherwise. -/
def applyFailed :
    List FailedCheckE → Block → List Block → List (SourcePosition × Bool) →
    Option (Block × List Block × List (SourcePosition × Bool))
  | [], a, bs, vc => some (a, bs, vc)
  | FailedCheckE.verifier cid :: rest, a, bs, vc =>
      match setFlag vc cid with
      | none => none
      | some vc2 => applyFailed rest a bs vc2
  | FailedCheckE.block bid cid :: rest, a, bs, vc =>
      if bid = 0 then
        match setFlag a.checks cid with
        | none => none
        | some ch => applyFailed rest ⟨a.code, ch, a.enabled⟩ bs vc
      else
        match bs[bid - 1]? with
        | none => none
        | some b =>
            match setFlag b.checks cid with
            | none => none
            | some ch => applyFailed rest a (bs.set (bid - 1) ⟨b.code, ch, b.enabled⟩) vc

/-- One check-table entry rendered as a `Marker` (lib.rs:274, 281, 288). -/
def markersOf (checks : List (SourcePosition × Bool)) : List Marker :=
  checks.map fun c => ⟨c.2, c.1⟩

/-- `if let Some(ed) = editors.get_mut(i) { ed.markers.push(..) }` repeated
for every check of one block (lib.rs:272-284): appends the block's check
markers to editor `i` when it exists, leaves the list unchanged otherwise. -/
def pushMarkersAt (eds : List Editor) (i : Nat)
    (checks : List (SourcePosition × Bool)) : List Editor :=
  match eds[i]? with
  | some ed => eds.set i ⟨ed.errors, ed.markers ++ markersOf checks⟩
  | none => eds

/-- The enumerated loop over the extension blocks (lib.rs:278-284), pushing
block `k`'s check markers onto editor `i + k`. -/
def pushBlocksFrom (eds : List Editor) (i : Nat) : List Block → List Editor
  | [] => eds
  | b :: rest => pushBlocksFrom (pushMarkersAt eds i b.checks) (i + 1) rest

/-- The check table owning editor `j`: the authority block for `j = 0`,
extension block `j - 1` otherwise (the editor at index `j` annotates the
block whose numeric id in verification outcomes is `j`). -/
def checksAt (a : Block) (bs : List Block) : Nat → List (SourcePosition × Bool)
  | 0 => a.checks
  | j + 1 =>
      match bs[j]? with
      | some b => b.checks
      | none => []

/-- The failed-check references carried by an outcome: the reported list for
`FailedChecks`, nothing for every other outcome kind. -/
def checkRefs : TokenResult → List FailedCheckE
  | TokenResult.err (TokenError.failedChecks v) => v
  | _ => []

/-- The outcome match of `execute_inner` (lib.rs:232-270): `FailedChecks`
flips the referenced flags, `Deny`/`Ok` produce the one policy marker at the
indexed policy position (out-of-range indices panic, i.e. `none`), any other
error leaves everything untouched; no other outcome kind produces a policy
marker. -/
def reconcileStep (outcome : TokenResult) (a : Block) (bs : List Block)
    (vchecks : List (SourcePosition × Bool)) (vpolicies : List SourcePosition) :
    Option (Block × List Block × List (SourcePosition × Bool) × List Marker) :=
  match outcome with
  | TokenResult.err (TokenError.failedChecks v) =>
      (applyFailed v a bs vchecks).map fun r => (r.1, r.2.1, r.2.2, ([] : List Marker))
  | TokenResult.err (TokenError.deny idx) =>
      (vpolicies[idx]?).map fun pos => (a, bs, vchecks, [⟨false, pos⟩])
  | TokenResult.err (TokenError.other _) => some (a, bs, vchecks, [])
  | TokenResult.ok idx =>
      (vpolicies[idx]?).map fun pos => (a, bs, vchecks, [⟨true, pos⟩])

/-- The verifier branch of `execute_inner` after a successful parse of the
verifier code (lib.rs:193-317).  Mirrors, in order: the bound-or-fresh
verifier (lib.rs:175-178), statement/policy registration with check and
policy bookkeeping (lib.rs:198-218), evaluation and the world dump
(lib.rs:220-230), the outcome reconciliation (lib.rs:232-270, see
`reconcileStep`), the three marker-appending loops (lib.rs:272-290), the
outcome text (lib.rs:292-295) and the optional query (lib.rs:297-317).
`[69,114,114,111,114,58,32]` is `"Error: "` and `[83,117,99,99,101,115,115]`
is `"Success"`. -/
def verifOk (env : Env) (vc : Text) (qstr : Option Text) (ts : TokenStageOut)
    (pr : SourceResult) : Option (BiscuitResult × Internals) :=
  let vbase :=
    match ts.tokenOpt with
    | some token => env.verifierFromToken token (env.pubKey ts.root)
    | none => env.newVerifier
  (registerStmts (pr.facts ++ pr.rules ++ pr.checks ++ pr.policies)).bind fun _ =>
    let verifier_checks := mkChecks vc pr.checks
    let verifier_policies :=
      pr.policies.map fun p => get_position vc p.off p.len
    let vstmts := pr.facts ++ pr.rules ++ pr.checks ++ pr.policies
    let outcome := env.evalVerifier vbase vstmts
    let world := (env.dumpWorld vbase vstmts).map fun f =>
      (⟨f.name, f.ids.map env.termToString⟩ : Fact)
    let vres : Text :=
      match outcome with
      | TokenResult.err e => [69, 114, 114, 111, 114, 58, 32] ++ env.renderError e
      | TokenResult.ok _ => [83, 117, 99, 99, 101, 115, 115]
    let qres : List Fact :=
      match qstr with
      | none => []
      | some qs =>
          if qs.isEmpty then []
          else
            match env.runQuery vbase vstmts qs with
            | QueryOutcome.err _ => []
            | QueryOutcome.ok facts =>
                facts.map fun f => ⟨f.name, f.ids.map env.termToString⟩
    (reconcileStep outcome ts.authority ts.blocks verifier_checks
        verifier_policies).map fun r =>
      (⟨pushBlocksFrom (pushMarkersAt ts.editors 0 r.1.checks) 1 r.2.1,
        ts.content, some ⟨[], r.2.2.2 ++ markersOf r.2.2.1⟩, some vres,
        world, qres⟩,
       ⟨r.1, r.2.1, r.2.2.1, verifier_policies, some outcome, ts.tokenOpt,
        ts.root, ts.tempKeypairs⟩)

/-- Embeds the verifier half of `execute_inner` (lib.rs:174-320): skipped
entirely when no verifier code is supplied (the response keeps all the
defaults); on a verifier parse failure the verifier editor carries the
converted errors and `verifier_result` the rendered failure list
(`[101,114,114,111,114,115,58,32]` is `"errors: "`); otherwise `verifOk`
runs.  The `qstr` argument is only consulted inside `verifOk`. -/
def verifStage (env : Env) (vcode : Option Text) (qstr : Option Text)
    (ts : TokenStageOut) : Option (BiscuitResult × Internals) :=
  match vcode with
  | none =>
      some (⟨ts.editors, ts.content, none, none, [], []⟩,
            ⟨ts.authority, ts.blocks, [], [], none, ts.tokenOpt, ts.root,
             ts.tempKeypairs⟩)
  | some vc =>
      match env.parse vc with
      | ParseOutcome.err errors =>
          some (⟨ts.editors, ts.content,
                 some ⟨get_parse_errors vc errors, []⟩,
                 some ([101, 114, 114, 111, 114, 115, 58, 32] ++ env.renderPErrors errors),
                 [], []⟩,
                ⟨ts.authority, ts.blocks, [], [], none, ts.tokenOpt, ts.root,
                 ts.tempKeypairs⟩)
      | ParseOutcome.ok pr => verifOk env vc qstr ts pr

/-- `execute_inner` with the RNG seed made explicit; the Rust code fixes it
to `0` (lib.rs:90), which `execute_full` below does. -/
def execute_with_seed (env : Env) (seed : Nat) (q : BiscuitQuery) :
    Option (BiscuitResult × Internals) :=
  match tokenStage env seed q.token_blocks with
  | none => none
  | some ts => verifStage env q.verifier_code q.query ts

/-- Embeds `execute_inner` (lib.rs:85-323), returning the response together
with the reconciliation internals.  The RNG is seeded with the constant `0`
(`SeedableRng::seed_from_u64(0)`, lib.rs:90).  `none` models a panic. -/
def execute_full (env : Env) (q : BiscuitQuery) :
    Option (BiscuitResult × Internals) :=
  execute_with_seed env 0 q

/-- The response of `execute_inner` alone: the internals projected away. -/
def execute_inner (env : Env) (q : BiscuitQuery) : Option BiscuitResult :=
  (execute_full env q).map fun r => r.1

/-! Concrete instances used to evaluate the development on closed inputs. -/

/-- A sample parser failure record. -/
def pErr0 : PError := ⟨0, 1, none, [99]⟩

/-- A sample parser: text `[1]` is an authority block with one check, `[2]`
a verifier block with one check and one policy, `[3]` a block with one fact
the builder rejects, anything else a parse failure. -/
def parseT : Text → ParseOutcome := fun t =>
  if t = [1] then ParseOutcome.ok ⟨[], [], [⟨0, 1, true⟩], []⟩
  else if t = [2] then ParseOutcome.ok ⟨[], [], [⟨0, 1, true⟩], [⟨0, 1, true⟩]⟩
  else if t = [3] then ParseOutcome.ok ⟨[⟨0, 1, false⟩], [], [], []⟩
  else ParseOutcome.err [pErr0]

/-- A sample environment whose evaluation allows policy 0. -/
def envOk : Env :=
  ⟨parseT, fun r => (r + 100, r + 1), fun k => k, fun _ _ r => (1000, r),
   fun tk _ _ r => (tk + 1, r), fun tk => [tk], fun tk pk => tk + pk, 0,
   fun _ _ => TokenResult.ok 0, fun _ _ => [], fun _ _ _ => QueryOutcome.ok [],
   fun n => [n], fun _ => [], fun _ => []⟩

/-- The same environment, but evaluation reports failed checks: the lone
verifier check twice (exercising idempotence) and the authority's check 0. -/
def envFC : Env :=
  ⟨parseT, fun r => (r + 100, r + 1), fun k => k, fun _ _ r => (1000, r),
   fun tk _ _ r => (tk + 1, r), fun tk => [tk], fun tk pk => tk + pk, 0,
   fun _ _ => TokenResult.err (TokenError.failedChecks
     [FailedCheckE.verifier 0, FailedCheckE.verifier 0, FailedCheckE.block 0 0]),
   fun _ _ => [], fun _ _ _ => QueryOutcome.ok [],
   fun n => [n], fun _ => [], fun _ => []⟩

/-- The outcome `envFC` reports. -/
def ocFC : TokenResult :=
  TokenResult.err (TokenError.failedChecks
    [FailedCheckE.verifier 0, FailedCheckE.verifier 0, FailedCheckE.block 0 0])

/-- Request: one authority block and a verifier block. -/
def qOk : BiscuitQuery := ⟨[[1]], some [2], none⟩

/-- Request: one unparsable authority block, no verifier. -/
def qPE : BiscuitQuery := ⟨[[9]], none, none⟩

/-- Request: one authority block whose fact the builder rejects. -/
def qRF : BiscuitQuery := ⟨[[3]], none, none⟩

/-- Request: an authority block, no verifier, but a non-empty query. -/
def qNV : BiscuitQuery := ⟨[[1]], none, some [5]⟩

/-- Fallback values for projecting optional results. -/
def emptyResult : BiscuitResult := ⟨[], [], none, none, [], []⟩

/-- Fallback internals. -/
def emptyInternals : Internals := ⟨Block.default, [], [], [], none, none, 0, []⟩

/-- The run of `envOk` on `qOk`. -/
def outOk : BiscuitResult × Internals :=
  (execute_full envOk qOk).getD (emptyResult, emptyInternals)

/-- The run of `envFC` on `qOk`. -/
def outFC : BiscuitResult × Internals :=
  (execute_full envFC qOk).getD (emptyResult, emptyInternals)

/-- The run of `envOk` on `qPE`. -/
def outPE : BiscuitResult × Internals :=
  (execute_full envOk qPE).getD (emptyResult, emptyInternals)

/-- The run of `envOk` on `qNV`. -/
def outNV : BiscuitResult × Internals :=
  (execute_full envOk qNV).getD (emptyResult, emptyInternals)

/-- The first block editor of the `envOk`/`qOk` run. -/
def edOk0 : Editor := (outOk.1.token_blocks[0]?).getD Editor.default

/-- The first verifier check entry of the `envFC`/`qOk` run. -/
def pbFC : SourcePosition × Bool :=
  (outFC.2.verifier_checks[0]?).getD (⟨0, 0, 0, 0⟩, true)

/-- The sample text `"ab\ncd"`. -/
def tW : Text := [97, 98, 10, 99, 100]

/-! Lemmas about the position mapper. -/

theorem position_eq_none_iff (f : Nat → Bool) (l : List Nat) :
    position f l = none ↔ ∀ x ∈ l, f x = false := by
  induction l with
  | nil => simp [position]
  | cons b rest ih =>
    by_cases hb : f b = true
    · simp [position, hb]
    · simp only [Bool.not_eq_true] at hb
      simp [position, hb, ih]

theorem position_lt_length (f : Nat → Bool) (l : List Nat) (i : Nat)
    (h : position f l = some i) : i < l.length := by
  induction l generalizing i with
  | nil => simp [position] at h
  | cons b rest ih =>
    by_cases hb : f b = true
    · simp [position, hb] at h
      simp [List.length_cons]
      omega
    · simp only [Bool.not_eq_true] at hb
      simp [position, hb, Option.map_eq_some'] at h
      obtain ⟨j, hj, rfl⟩ := h
      have := ih j hj
      simp [List.length_cons]
      omega

theorem position_append_some (f : Nat → Bool) (l : List Nat) (b : Nat) (i : Nat)
    (h : position f l = some i) : position f (l ++ [b]) = some i := by
  induction l generalizing i with
  | nil => simp [position] at h
  | cons c rest ih =>
    by_cases hc : f c = true
    · simp [position, hc] at h ⊢
      exact h
    · simp only [Bool.not_eq_true] at hc
      simp [position, hc, Option.map_eq_some'] at h ⊢
      obtain ⟨j, hj, rfl⟩ := h
      exact ⟨j, ih j hj, rfl⟩

theorem position_append_none (f : Nat → Bool) (l : List Nat) (b : Nat)
    (h : position f l = none) :
    position f (l ++ [b]) = if f b then some l.length else none := by
  induction l with
  | nil => simp [position]
  | cons c rest ih =>
    by_cases hc : f c = true
    · simp [position, hc] at h
    · simp only [Bool.not_eq_true] at hc
      simp [position, hc, Option.map_eq_none'] at h
      have h2 := ih h
      by_cases hb : f b = true
      · simp [position, hc, h2, hb]
      · simp only [Bool.not_eq_true] at hb
        simp [position, hc, h2, hb]

theorem countNl_cons (b : Nat) (p : Text) :
    countNl (b :: p) = (if b == 10 then 1 else 0) + countNl p := by
  by_cases hb : (b == 10) = true
  · simp [countNl, List.filter_cons, hb]
    omega
  · simp only [Bool.not_eq_true] at hb
    simp [countNl, List.filter_cons, hb]

theorem countNl_append (p q : Text) : countNl (p ++ q) = countNl p + countNl q := by
  simp [countNl, List.filter_append]

theorem countNl_eq_zero_iff (p : Text) :
    countNl p = 0 ↔ ∀ x ∈ p, (x == 10) = false := by
  simp [countNl, List.length_eq_zero, List.filter_eq_nil_iff]

theorem lineBegin_le (p : Text) : lineBegin p ≤ p.length := by
  unfold lineBegin
  cases h : position (fun b => b == 10) p.reverse with
  | none => exact Nat.zero_le _
  | some i => exact Nat.sub_le _ _

theorem lineBegin_eq_zero (p : Text) (h : countNl p = 0) : lineBegin p = 0 := by
  have hpos : position (fun b => b == 10) p.reverse = none := by
    rw [position_eq_none_iff]
    intro x hx
    exact (countNl_eq_zero_iff p).mp h x (List.mem_reverse.mp hx)
  simp [lineBegin, hpos]

theorem lineBegin_cons_pos (b : Nat) (p : Text) (h : countNl p ≠ 0) :
    lineBegin (b :: p) = lineBegin p + 1 := by
  cases hpos : position (fun x => x == 10) p.reverse with
  | none =>
      exact absurd ((countNl_eq_zero_iff p).mpr fun x hx =>
        (position_eq_none_iff _ _).mp hpos x (List.mem_reverse.mpr hx)) h
  | some i =>
      have hi : i < p.length := by
        have := position_lt_length _ _ _ hpos
        simpa using this
      have h2 : position (fun x => x == 10) (p.reverse ++ [b]) = some i :=
        position_append_some _ _ _ _ hpos
      unfold lineBegin
      rw [List.reverse_cons, h2, hpos]
      simp [List.length_cons]
      omega

theorem lineBegin_cons_zero (b : Nat) (p : Text) (h : countNl p = 0) :
    lineBegin (b :: p) = if b == 10 then 1 else 0 := by
  have hpos : position (fun x => x == 10) p.reverse = none := by
    rw [position_eq_none_iff]
    intro x hx
    exact (countNl_eq_zero_iff p).mp h x (List.mem_reverse.mp hx)
  have h2 : position (fun x => x == 10) (p.reverse ++ [b]) =
      if b == 10 then some p.reverse.length else none :=
    position_append_none _ _ _ hpos
  unfold lineBegin
  rw [List.reverse_cons, h2]
  by_cases hb : (b == 10) = true
  · simp [hb, List.length_cons, List.length_reverse]
  · simp only [Bool.not_eq_true] at hb
    simp [hb]

theorem lineStartOffset_append (p q : Text) :
    lineStartOffset (p ++ q) (countNl p) = lineBegin p := by
  induction p with
  | nil => simp [countNl, lineStartOffset, lineBegin, position]
  | cons b rest ih =>
    rw [countNl_cons]
    by_cases hb : (b == 10) = true
    · rw [if_pos hb, Nat.add_comm 1 (countNl rest)]
      have hstep : lineStartOffset ((b :: rest) ++ q) (countNl rest + 1) =
          1 + lineStartOffset (rest ++ q) (countNl rest) := by
        simp [lineStartOffset, hb]
      rw [hstep, ih]
      by_cases h0 : countNl rest = 0
      · rw [lineBegin_eq_zero rest h0, lineBegin_cons_zero b rest h0, if_pos hb]
      · rw [lineBegin_cons_pos b rest h0]
        omega
    · rw [if_neg hb, Nat.zero_add]
      cases h0 : countNl rest with
      | zero =>
          rw [lineBegin_cons_zero b rest h0, if_neg hb]
          simp [lineStartOffset]
      | succ m =>
          rw [h0] at ih
          have hstep : lineStartOffset ((b :: rest) ++ q) (m + 1) =
              1 + lineStartOffset (rest ++ q) (m + 1) := by
            simp [lineStartOffset, hb]
          rw [hstep, ih, lineBegin_cons_pos b rest (by omega)]
          omega

theorem lineStartOffset_take (t : Text) (off : Nat) :
    lineStartOffset t (countNl (t.take off)) = lineBegin (t.take off) := by
  have h := lineStartOffset_append (t.take off) (t.drop off)
  rwa [List.take_append_drop] at h

theorem get_position_eq (t : Text) (off len : Nat) :
    get_position t off len =
      ⟨countNl (t.take off), off - lineBegin (t.take off),
       countNl (t.take (off + len)),
       off + len - lineBegin (t.take (off + len)) + 1⟩ := rfl

/-- Claim C1: for every text and every non-empty span identified by its byte
offset, `get_position` returns an end position that is lexicographically at
least the start position, and re-slicing the text from
`(line_start, column_start)` to `(line_end, column_end - 1)` recovers
exactly the span's bytes. -/
theorem get_position_span_roundtrip (t : Text) (off len : Nat)
    (_hlen : 0 < len) (hb : off + len ≤ t.length) :
    ((get_position t off len).line_start < (get_position t off len).line_end ∨
      ((get_position t off len).line_start = (get_position t off len).line_end ∧
       (get_position t off len).column_start ≤ (get_position t off len).column_end)) ∧
    reslice t (get_position t off len) = spanBytes t off len := by
  rw [get_position_eq]
  have hoff : off ≤ t.length := le_trans (Nat.le_add_right off len) hb
  have hlen1 : (t.take off).length = off := by
    rw [List.length_take]
    omega
  have hlen2 : (t.take (off + len)).length = off + len := by
    rw [List.length_take]
    omega
  have hlb1 : lineBegin (t.take off) ≤ off := by
    have := lineBegin_le (t.take off)
    omega
  have hlb2 : lineBegin (t.take (off + len)) ≤ off + len := by
    have := lineBegin_le (t.take (off + len))
    omega
  have hmono : countNl (t.take off) ≤ countNl (t.take (off + len)) := by
    rw [List.take_add, countNl_append]
    exact Nat.le_add_right _ _
  constructor
  · rcases Nat.lt_or_ge (countNl (t.take off)) (countNl (t.take (off + len))) with hlt | hge
    · exact Or.inl hlt
    · have heq : countNl (t.take (off + len)) = countNl (t.take off) :=
        Nat.le_antisymm hge hmono
      have hlbeq : lineBegin (t.take (off + len)) = lineBegin (t.take off) := by
        rw [← lineStartOffset_take t off, ← lineStartOffset_take t (off + len), heq]
      refine Or.inr ⟨heq.symm, ?_⟩
      dsimp only
      rw [hlbeq]
      omega
  · show reslice t _ = spanBytes t off len
    simp only [reslice]
    rw [lineStartOffset_take, lineStartOffset_take]
    have e1 : lineBegin (t.take off) + (off - lineBegin (t.take off)) = off := by omega
    have e2 : lineBegin (t.take (off + len)) +
        (off + len - lineBegin (t.take (off + len)) + 1 - 1) = off + len := by omega
    rw [e1, e2]
    have e3 : off + len - off = len := by omega
    rw [e3]
    rfl

/-- Witness for C1 on `"ab\ncd"` with the span `"cd"`. -/
theorem get_position_span_roundtrip_witness :
    ((get_position tW 3 2).line_start < (get_position tW 3 2).line_end ∨
      ((get_position tW 3 2).line_start = (get_position tW 3 2).line_end ∧
       (get_position tW 3 2).column_start ≤ (get_position tW 3 2).column_end)) ∧
    reslice tW (get_position tW 3 2) = spanBytes tW 3 2 :=
  get_position_span_roundtrip tW 3 2 (by decide) (by decide)

/-- Claim C8: a zero-length span at a valid offset resolves to
`column_end = column_start + 1` on the same line. -/
theorem zero_len_span_position (t : Text) (off : Nat) (_h : off ≤ t.length) :
    (get_position t off 0).column_end = (get_position t off 0).column_start + 1 ∧
    (get_position t off 0).line_end = (get_position t off 0).line_start :=
  ⟨rfl, rfl⟩

/-- Witness for C8 at offset 2 of `"\na"`. -/
theorem zero_len_span_position_witness :
    (get_position [10, 97] 2 0).column_end = (get_position [10, 97] 2 0).column_start + 1 ∧
    (get_position [10, 97] 2 0).line_end = (get_position [10, 97] 2 0).line_start :=
  zero_len_span_position [10, 97] 2 (by decide)

/-! Lemmas about the result reconciler. -/

theorem setFlag_eq (l : List (SourcePosition × Bool)) (i : Nat) :
    setFlag l i = (l[i]?).map fun pb => l.set i (pb.1, false) := by
  unfold setFlag
  cases l[i]? <;> rfl

theorem setFlag_some (l l2 : List (SourcePosition × Bool)) (i : Nat)
    (h : setFlag l i = some l2) (j : Nat) :
    l2[j]? = if i = j then (l[j]?).map (fun pb => (pb.1, false)) else l[j]? := by
  rw [setFlag_eq, Option.map_eq_some'] at h
  obtain ⟨pb, hpb, rfl⟩ := h
  rw [List.getElem?_set]
  by_cases hij : i = j
  · subst hij
    have hlt : i < l.length := (List.getElem?_eq_some.mp hpb).1
    simp [hlt, hpb]
  · simp [hij]

theorem setFlag_length (l l2 : List (SourcePosition × Bool)) (i : Nat)
    (h : setFlag l i = some l2) : l2.length = l.length := by
  rw [setFlag_eq, Option.map_eq_some'] at h
  obtain ⟨pb, _, rfl⟩ := h
  exact List.length_set _ _ _

theorem option_map_eta (o : Option (SourcePosition × Bool)) :
    o.map (fun pb => (pb.1, pb.2)) = o := by
  cases o <;> rfl

theorem applyFailed_cons_verifier (cid : Nat) (rest : List FailedCheckE)
    (a : Block) (bs : List Block) (vc : List (SourcePosition × Bool)) :
    applyFailed (FailedCheckE.verifier cid :: rest) a bs vc =
      (setFlag vc cid).bind fun vc2 => applyFailed rest a bs vc2 := by
  cases hsf : setFlag vc cid with
  | none => simp [applyFailed, hsf]
  | some vc2 => simp [applyFailed, hsf]

theorem applyFailed_cons_block0 (cid : Nat) (rest : List FailedCheckE)
    (a : Block) (bs : List Block) (vc : List (SourcePosition × Bool)) :
    applyFailed (FailedCheckE.block 0 cid :: rest) a bs vc =
      (setFlag a.checks cid).bind fun ch =>
        applyFailed rest ⟨a.code, ch, a.enabled⟩ bs vc := by
  cases hsf : setFlag a.checks cid with
  | none => simp [applyFailed, hsf]
  | some ch => simp [applyFailed, hsf]

theorem applyFailed_cons_blockS (k cid : Nat) (rest : List FailedCheckE)
    (a : Block) (bs : List Block) (vc : List (SourcePosition × Bool)) :
    applyFailed (FailedCheckE.block (k + 1) cid :: rest) a bs vc =
      (bs[k]?).bind fun b => (setFlag b.checks cid).bind fun ch =>
        applyFailed rest a (bs.set k ⟨b.code, ch, b.enabled⟩) vc := by
  cases hb : bs[k]? with
  | none => simp [applyFailed, hb]
  | some b =>
    cases hsf : setFlag b.checks cid with
    | none => simp [applyFailed, hb, hsf]
    | some ch => simp [applyFailed, hb, hsf]

/-- Full characterisation of the failed-check loop: positions are kept, and
a flag ends up `false` exactly when its check is referenced by the failure
list routed to it (verifier-local by `check_id`, block `0` to the authority,
block `j + 1` to extension block `j`); everything else, and every list
length, is untouched. -/
theorem applyFailed_spec (v : List FailedCheckE) (a : Block) (bs : List Block)
    (vc : List (SourcePosition × Bool)) (a1 : Block) (bs1 : List Block)
    (vc1 : List (SourcePosition × Bool))
    (h : applyFailed v a bs vc = some (a1, bs1, vc1)) :
    (∀ i : Nat, vc1[i]? = (vc[i]?).map fun pb =>
        (pb.1, if FailedCheckE.verifier i ∈ v then false else pb.2)) ∧
    (∀ i : Nat, a1.checks[i]? = (a.checks[i]?).map fun pb =>
        (pb.1, if FailedCheckE.block 0 i ∈ v then false else pb.2)) ∧
    (∀ j i : Nat, (bs1[j]?).bind (fun blk : Block => blk.checks[i]?) =
        ((bs[j]?).bind (fun blk : Block => blk.checks[i]?)).map fun pb =>
          (pb.1, if FailedCheckE.block (j + 1) i ∈ v then false else pb.2)) ∧
    bs1.length = bs.length ∧ vc1.length = vc.length ∧
    a1.checks.length = a.checks.length ∧
    (∀ j : Nat, (bs1[j]?).map (fun blk : Block => blk.checks.length) =
        (bs[j]?).map fun blk : Block => blk.checks.length) := by
  induction v generalizing a bs vc with
  | nil =>
    simp only [applyFailed, Option.some.injEq, Prod.mk.injEq] at h
    obtain ⟨rfl, rfl, rfl⟩ := h
    refine ⟨fun i => ?_, fun i => ?_, fun j i => ?_, rfl, rfl, rfl, fun j => rfl⟩
    · simp [option_map_eta]
    · simp [option_map_eta]
    · simp [option_map_eta]
  | cons e rest ih =>
    cases e with
    | verifier cid =>
      rw [applyFailed_cons_verifier] at h
      cases hsf : setFlag vc cid with
      | none => rw [hsf] at h; simp at h
      | some vc2 =>
        rw [hsf, Option.some_bind] at h
        obtain ⟨ihv, iha, ihb, ihlb, ihlv, ihla, ihlbs⟩ := ih _ _ _ h
        refine ⟨fun i => ?_, fun i => ?_, fun j i => ?_, ihlb,
                ihlv.trans (setFlag_length _ _ _ hsf), ihla, ihlbs⟩
        · rw [ihv i, setFlag_some _ _ _ hsf i]
          by_cases hic : cid = i
          · subst hic
            cases hvc : vc[cid]? with
            | none => simp
            | some pb => simp [List.mem_cons]
          · rw [if_neg hic]
            have hic2 : ¬ (FailedCheckE.verifier i = FailedCheckE.verifier cid) := by
              simp
              omega
            cases hvc : vc[i]? with
            | none => simp
            | some pb => simp [List.mem_cons, hic2]
        · rw [iha i]
          cases hvc : a.checks[i]? with
          | none => simp
          | some pb => simp [List.mem_cons]
        · rw [ihb j i]
          cases hvc : (bs[j]?).bind (fun blk : Block => blk.checks[i]?) with
          | none => simp
          | some pb => simp [List.mem_cons]
    | block bid cid =>
      cases bid with
      | zero =>
        rw [applyFailed_cons_block0] at h
        cases hsf : setFlag a.checks cid with
        | none => rw [hsf] at h; simp at h
        | some ch =>
          rw [hsf, Option.some_bind] at h
          obtain ⟨ihv, iha, ihb, ihlb, ihlv, ihla, ihlbs⟩ := ih _ _ _ h
          refine ⟨fun i => ?_, fun i => ?_, fun j i => ?_, ihlb, ihlv,
                  ihla.trans (setFlag_length _ _ _ hsf), ihlbs⟩
          · rw [ihv i]
            cases hvc : vc[i]? with
            | none => simp
            | some pb => simp [List.mem_cons]
          · rw [iha i]
            dsimp only
            rw [setFlag_some _ _ _ hsf i]
            by_cases hic : cid = i
            · subst hic
              cases hvc : a.checks[cid]? with
              | none => simp
              | some pb => simp [List.mem_cons]
            · rw [if_neg hic]
              have hic2 : ¬ (FailedCheckE.block 0 i = FailedCheckE.block 0 cid) := by
                simp
                omega
              cases hvc : a.checks[i]? with
              | none => simp
              | some pb => simp [List.mem_cons, hic2]
          · rw [ihb j i]
            cases hvc : (bs[j]?).bind (fun blk : Block => blk.checks[i]?) with
            | none => simp
            | some pb => simp [List.mem_cons]
      | succ k =>
        rw [applyFailed_cons_blockS] at h
        cases hbsj : bs[k]? with
        | none => rw [hbsj] at h; simp at h
        | some b =>
          rw [hbsj, Option.some_bind] at h
          cases hsf : setFlag b.checks cid with
          | none => rw [hsf] at h; simp at h
          | some ch =>
            rw [hsf, Option.some_bind] at h
            obtain ⟨ihv, iha, ihb, ihlb, ihlv, ihla, ihlbs⟩ := ih _ _ _ h
            have hklt : k < bs.length := (List.getElem?_eq_some.mp hbsj).1
            refine ⟨fun i => ?_, fun i => ?_, fun j i => ?_,
                    ihlb.trans (List.length_set _ _ _), ihlv, ihla, fun j => ?_⟩
            · rw [ihv i]
              cases hvc : vc[i]? with
              | none => simp
              | some pb => simp [List.mem_cons]
            · rw [iha i]
              cases hvc : a.checks[i]? with
              | none => simp
              | some pb => simp [List.mem_cons]
            · rw [ihb j i, List.getElem?_set]
              by_cases hj : k = j
              · subst hj
                rw [if_pos rfl, if_pos hklt, hbsj, Option.some_bind, Option.some_bind]
                dsimp only
                rw [setFlag_some _ _ _ hsf i]
                by_cases hic : cid = i
                · subst hic
                  cases hvc : b.checks[cid]? with
                  | none => simp
                  | some pb => simp [List.mem_cons]
                · rw [if_neg hic]
                  have hic2 : ¬ (FailedCheckE.block (k + 1) i = FailedCheckE.block (k + 1) cid) := by
                    simp
                    omega
                  cases hvc : b.checks[i]? with
                  | none => simp
                  | some pb => simp [List.mem_cons, hic2]
              · rw [if_neg hj]
                have hic2 : ¬ (FailedCheckE.block (j + 1) i = FailedCheckE.block (k + 1) cid) := by
                  simp
                  omega
                cases hvc : (bs[j]?).bind (fun blk : Block => blk.checks[i]?) with
                | none => simp
                | some pb => simp [List.mem_cons, hic2]
            · rw [ihlbs j, List.getElem?_set]
              by_cases hj : k = j
              · subst hj
                rw [if_pos rfl, if_pos hklt, hbsj]
                simp [setFlag_length _ _ _ hsf]
              · rw [if_neg hj]

/-! Lemmas about the marker-appending loops. -/

theorem pushMarkersAt_getElem_ne (eds : List Editor) (i : Nat)
    (cks : List (SourcePosition × Bool)) (j : Nat) (hne : ¬ i = j) :
    (pushMarkersAt eds i cks)[j]? = eds[j]? := by
  unfold pushMarkersAt
  cases h : eds[i]? with
  | none => rfl
  | some ed => rw [List.getElem?_set, if_neg hne]

theorem pushMarkersAt_getElem_self (eds : List Editor) (i : Nat)
    (cks : List (SourcePosition × Bool)) :
    (pushMarkersAt eds i cks)[i]? =
      (eds[i]?).map fun ed => ⟨ed.errors, ed.markers ++ markersOf cks⟩ := by
  unfold pushMarkersAt
  cases h : eds[i]? with
  | none => simp [h]
  | some ed =>
    have hlt : i < eds.length := (List.getElem?_eq_some.mp h).1
    rw [List.getElem?_set]
    simp [hlt, h]

theorem pushMarkersAt_length (eds : List Editor) (i : Nat)
    (cks : List (SourcePosition × Bool)) :
    (pushMarkersAt eds i cks).length = eds.length := by
  unfold pushMarkersAt
  cases eds[i]? with
  | none => rfl
  | some ed => exact List.length_set _ _ _

theorem pushBlocksFrom_getElem (bs : List Block) :
    ∀ (eds : List Editor) (i j : Nat), (pushBlocksFrom eds i bs)[j]? =
      if j < i then eds[j]?
      else
        match bs[j - i]? with
        | some b => (eds[j]?).map fun ed => ⟨ed.errors, ed.markers ++ markersOf b.checks⟩
        | none => eds[j]? := by
  induction bs with
  | nil =>
    intro eds i j
    simp [pushBlocksFrom]
  | cons b rest ih =>
    intro eds i j
    simp only [pushBlocksFrom]
    rw [ih]
    by_cases h1 : j < i
    · rw [if_pos (by omega : j < i + 1), if_pos h1]
      exact pushMarkersAt_getElem_ne _ _ _ _ (by omega)
    · by_cases h2 : j = i
      · subst h2
        rw [if_pos (by omega : j < j + 1), if_neg (by omega : ¬ j < j)]
        rw [Nat.sub_self, List.getElem?_cons_zero]
        exact pushMarkersAt_getElem_self _ _ _
      · have h3 : ¬ j < i + 1 := by omega
        rw [if_neg h3, if_neg h1]
        have hji : j - i = (j - (i + 1)) + 1 := by omega
        rw [hji, List.getElem?_cons_succ]
        cases hr : rest[j - (i + 1)]? with
        | none => exact pushMarkersAt_getElem_ne _ _ _ _ (by omega)
        | some bb => rw [pushMarkersAt_getElem_ne _ _ _ _ (by omega)]

theorem pushBlocksFrom_length (bs : List Block) :
    ∀ (eds : List Editor) (i : Nat), (pushBlocksFrom eds i bs).length = eds.length := by
  induction bs with
  | nil => intro eds i; rfl
  | cons b rest ih =>
    intro eds i
    simp only [pushBlocksFrom]
    rw [ih, pushMarkersAt_length]

/-- The three appending loops in one statement: editor `j` receives exactly
the markers of the check table owning it, appended to whatever it held. -/
theorem pushAll_getElem (eds : List Editor) (a : Block) (bs : List Block) (j : Nat) :
    (pushBlocksFrom (pushMarkersAt eds 0 a.checks) 1 bs)[j]? =
      (eds[j]?).map fun ed =>
        ⟨ed.errors, ed.markers ++ markersOf (checksAt a bs j)⟩ := by
  rw [pushBlocksFrom_getElem]
  cases j with
  | zero =>
    rw [if_pos (by omega), pushMarkersAt_getElem_self]
    rfl
  | succ m =>
    rw [if_neg (by omega)]
    have hms : m + 1 - 1 = m := by omega
    rw [hms]
    cases hb : bs[m]? with
    | none =>
      rw [pushMarkersAt_getElem_ne _ _ _ _ (by omega)]
      cases eds[m + 1]? with
      | none => simp [checksAt, hb]
      | some ed => simp [checksAt, hb, markersOf]
    | some b =>
      rw [pushMarkersAt_getElem_ne _ _ _ _ (by omega)]
      simp [checksAt, hb]

/-! Lemmas about block assembly and the token stage. -/

theorem registerStmts_eq_none (ss : List Stmt) (s : Stmt) (hs : s ∈ ss)
    (hreg : s.regOk = false) : registerStmts ss = none := by
  have hall : ¬ (ss.all (fun s => s.regOk) = true) := by
    rw [List.all_eq_true]
    intro hmem
    have := hmem s hs
    rw [hreg] at this
    exact absurd this (by simp)
  unfold registerStmts
  rw [if_neg hall]

theorem mkChecks_getElem (code : Text) (cks : List Stmt) (j : Nat) :
    (mkChecks code cks)[j]? =
      (cks[j]?).map fun c => (get_position code c.off c.len, true) := by
  unfold mkChecks
  rw [List.getElem?_map]

theorem mkChecks_flag (code : Text) (cks : List Stmt) (pb : SourcePosition × Bool)
    (hm : pb ∈ mkChecks code cks) : pb.2 = true := by
  unfold mkChecks at hm
  rw [List.mem_map] at hm
  obtain ⟨c, _, rfl⟩ := hm
  rfl

theorem assembleBlock_err (env : Env) (code : Text) (errors : List PError)
    (hp : env.parse code = ParseOutcome.err errors) :
    assembleBlock env code =
      some ⟨⟨get_parse_errors code errors, []⟩, Block.default, []⟩ := by
  unfold assembleBlock
  rw [hp]

theorem assembleBlock_ok (env : Env) (code : Text) (pr : SourceResult)
    (hp : env.parse code = ParseOutcome.ok pr) :
    assembleBlock env code =
      match registerStmts (pr.facts ++ pr.rules ++ pr.checks) with
      | none => none
      | some _ => some ⟨Editor.default, ⟨[], mkChecks code pr.checks, true⟩,
                        pr.facts ++ pr.rules ++ pr.checks⟩ := by
  unfold assembleBlock
  rw [hp]

theorem assembleBlock_none (env : Env) (code : Text) (pr : SourceResult) (s : Stmt)
    (hp : env.parse code = ParseOutcome.ok pr)
    (hs : s ∈ pr.facts ++ pr.rules ++ pr.checks) (hreg : s.regOk = false) :
    assembleBlock env code = none := by
  rw [assembleBlock_ok env code pr hp, registerStmts_eq_none _ s hs hreg]

theorem assembleBlock_shape (env : Env) (code : Text) (asm : Assembled)
    (h : assembleBlock env code = some asm) :
    asm.editor.markers = [] ∧ (∀ pb ∈ asm.block.checks, pb.2 = true) := by
  cases hp : env.parse code with
  | err errors =>
    rw [assembleBlock_err env code errors hp] at h
    obtain rfl : (⟨⟨get_parse_errors code errors, []⟩, Block.default, []⟩ : Assembled) = asm := by
      simpa using h
    exact ⟨rfl, by simp [Block.default]⟩
  | ok pr =>
    rw [assembleBlock_ok env code pr hp] at h
    cases hreg : registerStmts (pr.facts ++ pr.rules ++ pr.checks) with
    | none => rw [hreg] at h; simp at h
    | some u =>
      rw [hreg] at h
      obtain rfl : (⟨Editor.default, ⟨[], mkChecks code pr.checks, true⟩,
          pr.facts ++ pr.rules ++ pr.checks⟩ : Assembled) = asm := by
        simpa using h
      exact ⟨rfl, fun pb hpb => mkChecks_flag code pr.checks pb hpb⟩

theorem processRest_props (env : Env) (codes : List Text) :
    ∀ (token rng : Nat) (eds : List Editor) (blks : List Block) (kps : List Nat)
      (tokF rngF : Nat),
    processRest env codes token rng = some (eds, blks, kps, tokF, rngF) →
    eds.length = codes.length ∧ blks.length = codes.length ∧
    (∀ ed ∈ eds, ed.markers = []) ∧
    (∀ blk ∈ blks, ∀ pb ∈ blk.checks, pb.2 = true) ∧
    (∀ (j : Nat) (tj : Text) (errs : List PError), codes[j]? = some tj →
        env.parse tj = ParseOutcome.err errs →
        eds[j]? = some ⟨get_parse_errors tj errs, []⟩ ∧
        blks[j]? = some Block.default) := by
  induction codes with
  | nil =>
    intro token rng eds blks kps tokF rngF h
    simp only [processRest, Option.some.injEq, Prod.mk.injEq] at h
    obtain ⟨rfl, rfl, rfl, rfl, rfl⟩ := h
    refine ⟨rfl, rfl, by simp, by simp, ?_⟩
    intro j tj errs hcj
    simp at hcj
  | cons c more ih =>
    intro token rng eds blks kps tokF rngF h
    simp only [processRest] at h
    cases ha : assembleBlock env c with
    | none => rw [ha] at h; simp at h
    | some asm =>
      rw [ha, Option.some_bind] at h
      rw [Option.map_eq_some'] at h
      obtain ⟨r, hr, hval⟩ := h
      obtain ⟨eds2, blks2, kps2, tokF2, rngF2⟩ := r
      simp only [Prod.mk.injEq] at hval
      obtain ⟨rfl, rfl, rfl, rfl, rfl⟩ := hval
      obtain ⟨hl1, hl2, hm, hf, herr⟩ := ih _ _ _ _ _ _ _ hr
      obtain ⟨hasm1, hasm2⟩ := assembleBlock_shape env c asm ha
      refine ⟨by simp [hl1], by simp [hl2], ?_, ?_, ?_⟩
      · intro ed hed
        rw [List.mem_cons] at hed
        cases hed with
        | inl he => rw [he]; exact hasm1
        | inr he => exact hm ed he
      · intro blk hblk
        rw [List.mem_cons] at hblk
        cases hblk with
        | inl he => rw [he]; exact hasm2
        | inr he => exact hf blk he
      · intro j tj errs hcj hperr
        cases j with
        | zero =>
          rw [List.getElem?_cons_zero, Option.some.injEq] at hcj
          subst hcj
          rw [assembleBlock_err env c errs hperr] at ha
          rw [Option.some.injEq] at ha
          rw [List.getElem?_cons_zero, List.getElem?_cons_zero, ← ha]
          exact ⟨rfl, rfl⟩
        | succ m =>
          rw [List.getElem?_cons_succ] at hcj
          rw [List.getElem?_cons_succ, List.getElem?_cons_succ]
          exact herr m tj errs hcj hperr

theorem processRest_none (env : Env) (codes : List Text) :
    ∀ (token rng j : Nat) (tj : Text), codes[j]? = some tj →
    assembleBlock env tj = none → processRest env codes token rng = none := by
  induction codes with
  | nil => intro token rng j tj hcj; simp at hcj
  | cons c more ih =>
    intro token rng j tj hcj hnone
    cases j with
    | zero =>
      rw [List.getElem?_cons_zero, Option.some.injEq] at hcj
      subst hcj
      simp [processRest, hnone]
    | succ m =>
      rw [List.getElem?_cons_succ] at hcj
      cases ha : assembleBlock env c with
      | none => simp [processRest, ha]
      | some asm =>
        simp only [processRest]
        rw [ha, Option.some_bind, ih _ _ m tj hcj hnone]
        rfl

theorem tokenStage_props (env : Env) (seed : Nat) (tbs : List Text)
    (ts : TokenStageOut) (h : tokenStage env seed tbs = some ts) :
    ts.editors.length = tbs.length ∧
    (∀ ed ∈ ts.editors, ed.markers = []) ∧
    (∀ pb ∈ ts.authority.checks, pb.2 = true) ∧
    (∀ blk ∈ ts.blocks, ∀ pb ∈ blk.checks, pb.2 = true) ∧
    (∀ (j : Nat) (tj : Text) (errs : List PError), tbs[j]? = some tj →
        env.parse tj = ParseOutcome.err errs →
        ts.editors[j]? = some ⟨get_parse_errors tj errs, []⟩ ∧
        checksAt ts.authority ts.blocks j = []) := by
  cases tbs with
  | nil =>
    simp only [tokenStage, Option.some.injEq] at h
    subst h
    refine ⟨rfl, by simp, by simp [Block.default], by simp, ?_⟩
    intro j tj errs hcj
    simp at hcj
  | cons t0 rest =>
    simp only [tokenStage] at h
    cases ha : assembleBlock env t0 with
    | none => rw [ha] at h; simp at h
    | some asm =>
      rw [ha, Option.some_bind, Option.map_eq_some'] at h
      obtain ⟨r, hr, hval⟩ := h
      obtain ⟨eds2, blks2, kps2, tokF2, rngF2⟩ := r
      subst hval
      obtain ⟨hl1, hl2, hm, hf, herr⟩ := processRest_props env rest _ _ _ _ _ _ _ hr
      obtain ⟨hasm1, hasm2⟩ := assembleBlock_shape env t0 asm ha
      refine ⟨by simp [hl1], ?_, hasm2, hf, ?_⟩
      · intro ed hed
        rw [List.mem_cons] at hed
        cases hed with
        | inl he => rw [he]; exact hasm1
        | inr he => exact hm ed he
      · intro j tj errs hcj hperr
        cases j with
        | zero =>
          rw [List.getElem?_cons_zero, Option.some.injEq] at hcj
          subst hcj
          rw [assembleBlock_err env t0 errs hperr, Option.some.injEq] at ha
          constructor
          · rw [List.getElem?_cons_zero, ← ha]
          · show asm.block.checks = []
            rw [← ha]
            rfl
        | succ m =>
          rw [List.getElem?_cons_succ] at hcj
          obtain ⟨he1, he2⟩ := herr m tj errs hcj hperr
          constructor
          · rw [List.getElem?_cons_succ]
            exact he1
          · show checksAt _ blks2 (m + 1) = []
            simp [checksAt, he2, Block.default]

theorem tokenStage_token (env : Env) (seed : Nat) (t0 : Text) (rest : List Text)
    (ts : TokenStageOut) (h : tokenStage env seed (t0 :: rest) = some ts) :
    ∃ tk : Nat, ts.tokenOpt = some tk ∧ ts.content = env.printToken tk := by
  simp only [tokenStage] at h
  cases ha : assembleBlock env t0 with
  | none => rw [ha] at h; simp at h
  | some asm =>
    rw [ha, Option.some_bind, Option.map_eq_some'] at h
    obtain ⟨r, hr, hval⟩ := h
    obtain ⟨eds2, blks2, kps2, tokF2, rngF2⟩ := r
    subst hval
    exact ⟨tokF2, rfl, rfl⟩

theorem tokenStage_none (env : Env) (seed : Nat) (tbs : List Text) (j : Nat)
    (tj : Text) (hcj : tbs[j]? = some tj)
    (hnone : assembleBlock env tj = none) : tokenStage env seed tbs = none := by
  cases tbs with
  | nil => simp at hcj
  | cons t0 rest =>
    cases j with
    | zero =>
      rw [List.getElem?_cons_zero, Option.some.injEq] at hcj
      subst hcj
      simp [tokenStage, hnone]
    | succ m =>
      rw [List.getElem?_cons_succ] at hcj
      cases ha : assembleBlock env t0 with
      | none => simp [tokenStage, ha]
      | some asm =>
        simp only [tokenStage]
        rw [ha, Option.some_bind, processRest_none env rest _ _ m tj hcj hnone]
        rfl

/-! Lemmas about the verifier stage. -/

theorem reconcileStep_cases (oc : TokenResult) (a : Block) (bs : List Block)
    (vchecks : List (SourcePosition × Bool)) (vpolicies : List SourcePosition)
    (a1 : Block) (b1 : List Block) (vk1 : List (SourcePosition × Bool))
    (vm : List Marker)
    (h : reconcileStep oc a bs vchecks vpolicies = some (a1, b1, vk1, vm)) :
    (∃ v, oc = TokenResult.err (TokenError.failedChecks v) ∧
        applyFailed v a bs vchecks = some (a1, b1, vk1) ∧ vm = []) ∨
    (∃ idx pos, oc = TokenResult.err (TokenError.deny idx) ∧
        vpolicies[idx]? = some pos ∧ a1 = a ∧ b1 = bs ∧ vk1 = vchecks ∧
        vm = [⟨false, pos⟩]) ∨
    (∃ c, oc = TokenResult.err (TokenError.other c) ∧
        a1 = a ∧ b1 = bs ∧ vk1 = vchecks ∧ vm = []) ∨
    (∃ idx pos, oc = TokenResult.ok idx ∧
        vpolicies[idx]? = some pos ∧ a1 = a ∧ b1 = bs ∧ vk1 = vchecks ∧
        vm = [⟨true, pos⟩]) := by
  cases oc with
  | ok idx =>
    simp only [reconcileStep, Option.map_eq_some'] at h
    obtain ⟨pos, hpos, hval⟩ := h
    simp only [Prod.mk.injEq] at hval
    obtain ⟨h1, h2, h3, h4⟩ := hval
    exact Or.inr (Or.inr (Or.inr
      ⟨idx, pos, rfl, hpos, h1.symm, h2.symm, h3.symm, h4.symm⟩))
  | err e =>
    cases e with
    | failedChecks v =>
      simp only [reconcileStep, Option.map_eq_some'] at h
      obtain ⟨r, hr, hval⟩ := h
      obtain ⟨ra, rb, rc⟩ := r
      simp only [Prod.mk.injEq] at hval
      obtain ⟨h1, h2, h3, h4⟩ := hval
      subst h1
      subst h2
      subst h3
      exact Or.inl ⟨v, rfl, hr, h4.symm⟩
    | deny idx =>
      simp only [reconcileStep, Option.map_eq_some'] at h
      obtain ⟨pos, hpos, hval⟩ := h
      simp only [Prod.mk.injEq] at hval
      obtain ⟨h1, h2, h3, h4⟩ := hval
      exact Or.inr (Or.inl ⟨idx, pos, rfl, hpos, h1.symm, h2.symm, h3.symm, h4.symm⟩)
    | other c =>
      simp only [reconcileStep, Option.some.injEq, Prod.mk.injEq] at h
      obtain ⟨h1, h2, h3, h4⟩ := h
      exact Or.inr (Or.inr (Or.inl ⟨c, rfl, h1.symm, h2.symm, h3.symm, h4.symm⟩))

theorem verifStage_none (env : Env) (qstr : Option Text) (ts : TokenStageOut) :
    verifStage env none qstr ts =
      some (⟨ts.editors, ts.content, none, none, [], []⟩,
            ⟨ts.authority, ts.blocks, [], [], none, ts.tokenOpt, ts.root,
             ts.tempKeypairs⟩) := rfl

theorem verifStage_err (env : Env) (vc : Text) (qstr : Option Text)
    (ts : TokenStageOut) (errors : List PError)
    (hp : env.parse vc = ParseOutcome.err errors) :
    verifStage env (some vc) qstr ts =
      some (⟨ts.editors, ts.content,
             some ⟨get_parse_errors vc errors, []⟩,
             some ([101, 114, 114, 111, 114, 115, 58, 32] ++ env.renderPErrors errors),
             [], []⟩,
            ⟨ts.authority, ts.blocks, [], [], none, ts.tokenOpt, ts.root,
             ts.tempKeypairs⟩) := by
  simp only [verifStage]
  rw [hp]

theorem verifStage_ok (env : Env) (vc : Text) (qstr : Option Text)
    (ts : TokenStageOut) (pr : SourceResult)
    (hp : env.parse vc = ParseOutcome.ok pr) :
    verifStage env (some vc) qstr ts = verifOk env vc qstr ts pr := by
  simp only [verifStage]
  rw [hp]

/-- Shape of every run in which verification was evaluated: the verifier
code was present and parsed, the reconciliation step produced the final
check tables recorded in the internals, and the response's editors are the
token-stage editors with the final check markers appended (preceded, in the
verifier editor, by the policy markers the reconciliation produced). -/
theorem execute_full_eval (env : Env) (q : BiscuitQuery) (res : BiscuitResult)
    (ii : Internals) (oc : TokenResult)
    (h : execute_full env q = some (res, ii)) (ho : ii.outcome = some oc) :
    ∃ (ts : TokenStageOut) (vc : Text) (pr : SourceResult) (vm : List Marker),
      tokenStage env 0 q.token_blocks = some ts ∧
      q.verifier_code = some vc ∧
      env.parse vc = ParseOutcome.ok pr ∧
      ii.verifier_policies = pr.policies.map (fun p => get_position vc p.off p.len) ∧
      reconcileStep oc ts.authority ts.blocks (mkChecks vc pr.checks)
          ii.verifier_policies = some (ii.authority, ii.blocks, ii.verifier_checks, vm) ∧
      res.token_blocks =
        pushBlocksFrom (pushMarkersAt ts.editors 0 ii.authority.checks) 1 ii.blocks ∧
      res.verifier_editor = some ⟨[], vm ++ markersOf ii.verifier_checks⟩ ∧
      res.token_content = ts.content ∧
      ii.tokenOpt = ts.tokenOpt := by
  obtain ⟨tbs, vcode, qstr⟩ := q
  unfold execute_full execute_with_seed at h
  cases hts : tokenStage env 0 tbs with
  | none => rw [hts] at h; simp at h
  | some ts =>
    rw [hts] at h
    have h2 : verifStage env vcode qstr ts = some (res, ii) := h
    cases vcode with
    | none =>
      rw [verifStage_none, Option.some.injEq, Prod.mk.injEq] at h2
      obtain ⟨h3, h4⟩ := h2
      rw [← h4] at ho
      simp at ho
    | some vc =>
      cases hp : env.parse vc with
      | err errors =>
        rw [verifStage_err env vc qstr ts errors hp, Option.some.injEq,
            Prod.mk.injEq] at h2
        obtain ⟨h3, h4⟩ := h2
        rw [← h4] at ho
        simp at ho
      | ok pr =>
        rw [verifStage_ok env vc qstr ts pr hp] at h2
        simp only [verifOk] at h2
        cases hreg : registerStmts (pr.facts ++ pr.rules ++ pr.checks ++ pr.policies) with
        | none => rw [hreg] at h2; simp at h2
        | some u =>
          rw [hreg, Option.some_bind, Option.map_eq_some'] at h2
          obtain ⟨r, hr, hval⟩ := h2
          obtain ⟨a1, b1, vk1, vm⟩ := r
          rw [Prod.mk.injEq] at hval
          obtain ⟨hres, hii⟩ := hval
          subst hres
          subst hii
          injection ho with hoc
          subst hoc
          exact ⟨ts, vc, pr, vm, rfl, rfl, hp, rfl, hr, rfl, rfl, rfl, rfl⟩

/-- Shared consequence of `execute_full_eval`: after an evaluated run every
block editor's markers are exactly the markers of the check table owning
it. -/
theorem editors_markers_eval (env : Env) (q : BiscuitQuery)
    (res : BiscuitResult) (ii : Internals) (oc : TokenResult)
    (h : execute_full env q = some (res, ii)) (ho : ii.outcome = some oc) :
    ∀ (j : Nat) (ed : Editor), res.token_blocks[j]? = some ed →
      ed.markers = markersOf (checksAt ii.authority ii.blocks j) := by
  obtain ⟨ts, vc, pr, vm, hts, hvc, hp, hpol, hrec, htb, hve, hct, hto⟩ :=
    execute_full_eval env q res ii oc h ho
  intro j ed hed
  rw [htb, pushAll_getElem, Option.map_eq_some'] at hed
  obtain ⟨ed0, hed0, hval⟩ := hed
  obtain ⟨_, hmk, _, _, _⟩ := tokenStage_props env 0 q.token_blocks ts hts
  have hm0 : ed0.markers = [] := hmk ed0 (List.mem_iff_getElem?.mpr ⟨j, hed0⟩)
  rw [← hval]
  show ed0.markers ++ markersOf (checksAt ii.authority ii.blocks j) = _
  rw [hm0, List.nil_append]

/-- Claim C2: whenever verification has been evaluated — for every outcome
kind — every check registered for the authority block, for each extension
block and for the verifier is appended as exactly one Marker to its owning
Editor, in original registration order, carrying its current (possibly
flipped) pass flag; the verifier editor holds them after at most one policy
marker. -/
theorem check_markers_appended (env : Env) (q : BiscuitQuery)
    (res : BiscuitResult) (ii : Internals) (oc : TokenResult)
    (h : execute_full env q = some (res, ii)) (ho : ii.outcome = some oc) :
    (∀ (j : Nat) (ed : Editor), res.token_blocks[j]? = some ed →
        ed.markers = markersOf (checksAt ii.authority ii.blocks j)) ∧
    (∃ pm : List Marker, pm.length ≤ 1 ∧
        res.verifier_editor = some ⟨[], pm ++ markersOf ii.verifier_checks⟩) := by
  refine ⟨editors_markers_eval env q res ii oc h ho, ?_⟩
  obtain ⟨ts, vc, pr, vm, hts, hvc, hp, hpol, hrec, htb, hve, hct, hto⟩ :=
    execute_full_eval env q res ii oc h ho
  refine ⟨vm, ?_, hve⟩
  rcases reconcileStep_cases _ _ _ _ _ _ _ _ _ hrec with
    ⟨v, hoc2, hap, hvm⟩ | ⟨idx, pos, hoc2, hpos, _, _, _, hvm⟩ |
    ⟨c, hoc2, _, _, _, hvm⟩ | ⟨idx, pos, hoc2, hpos, _, _, _, hvm⟩
  · rw [hvm]; simp
  · rw [hvm]; simp
  · rw [hvm]; simp
  · rw [hvm]; simp

/-- Claim C5: exactly one policy Marker, always on the verifier Editor and
never on a block Editor, when the outcome is Allowed (ok = true) or Denied
(ok = false), placed at the position stored for the policy's ordinal index;
zero policy markers for ChecksFailed and for any other evaluation error. -/
theorem policy_marker_spec (env : Env) (q : BiscuitQuery)
    (res : BiscuitResult) (ii : Internals) (oc : TokenResult)
    (h : execute_full env q = some (res, ii)) (ho : ii.outcome = some oc) :
    (∀ idx : Nat, oc = TokenResult.ok idx → ∃ pos,
        ii.verifier_policies[idx]? = some pos ∧
        res.verifier_editor =
          some ⟨[], Marker.mk true pos :: markersOf ii.verifier_checks⟩) ∧
    (∀ idx : Nat, oc = TokenResult.err (TokenError.deny idx) → ∃ pos,
        ii.verifier_policies[idx]? = some pos ∧
        res.verifier_editor =
          some ⟨[], Marker.mk false pos :: markersOf ii.verifier_checks⟩) ∧
    (∀ v, oc = TokenResult.err (TokenError.failedChecks v) →
        res.verifier_editor = some ⟨[], markersOf ii.verifier_checks⟩) ∧
    (∀ c, oc = TokenResult.err (TokenError.other c) →
        res.verifier_editor = some ⟨[], markersOf ii.verifier_checks⟩) ∧
    (∀ (j : Nat) (ed : Editor), res.token_blocks[j]? = some ed →
        ed.markers = markersOf (checksAt ii.authority ii.blocks j)) := by
  obtain ⟨ts, vc, pr, vm, hts, hvc, hp, hpol, hrec, htb, hve, hct, hto⟩ :=
    execute_full_eval env q res ii oc h ho
  rcases reconcileStep_cases _ _ _ _ _ _ _ _ _ hrec with
    ⟨v, hoc2, hap, hvm⟩ | ⟨idx0, pos, hoc2, hpos, _, _, _, hvm⟩ |
    ⟨c, hoc2, _, _, _, hvm⟩ | ⟨idx0, pos, hoc2, hpos, _, _, _, hvm⟩
  · subst hoc2
    refine ⟨?_, ?_, ?_, ?_, editors_markers_eval env q res ii _ h ho⟩
    · intro idx hoc
      simp at hoc
    · intro idx hoc
      simp at hoc
    · intro v2 hoc
      rw [hve, hvm, List.nil_append]
    · intro c hoc
      simp at hoc
  · subst hoc2
    refine ⟨?_, ?_, ?_, ?_, editors_markers_eval env q res ii _ h ho⟩
    · intro idx hoc
      simp at hoc
    · intro idx hoc
      have hidx : idx0 = idx := by
        simpa using hoc
      subst hidx
      exact ⟨pos, hpos, by rw [hve, hvm]; rfl⟩
    · intro v2 hoc
      simp at hoc
    · intro c hoc
      simp at hoc
  · subst hoc2
    refine ⟨?_, ?_, ?_, ?_, editors_markers_eval env q res ii _ h ho⟩
    · intro idx hoc
      simp at hoc
    · intro idx hoc
      simp at hoc
    · intro v2 hoc
      simp at hoc
    · intro c2 hoc
      rw [hve, hvm, List.nil_append]
  · subst hoc2
    refine ⟨?_, ?_, ?_, ?_, editors_markers_eval env q res ii _ h ho⟩
    · intro idx hoc
      have hidx : idx0 = idx := by
        simpa using hoc
      subst hidx
      exact ⟨pos, hpos, by rw [hve, hvm]; rfl⟩
    · intro idx hoc
      simp at hoc
    · intro v2 hoc
      simp at hoc
    · intro c hoc
      simp at hoc

theorem flag_iff_of_ite (pb0 pb : SourcePosition × Bool) (c : Prop) [Decidable c]
    (hflag : pb0.2 = true) (hval : (pb0.1, if c then false else pb0.2) = pb) :
    pb.2 = false ↔ c := by
  rw [← hval]
  by_cases hc : c
  · simp [hc]
  · simp [hc, hflag]

/-- Claim C3: every registered check's pass flag starts `true`; after an
evaluated run a flag is `false` exactly when its check is referenced by the
outcome's failed-check list (so unreferenced checks keep `true`, referenced
ones become `false`, and duplicate references are idempotent — membership
does not count multiplicity). -/
theorem check_flag_lifecycle (env : Env) (q : BiscuitQuery)
    (res : BiscuitResult) (ii : Internals) (oc : TokenResult)
    (h : execute_full env q = some (res, ii)) (ho : ii.outcome = some oc) :
    (∀ (code : Text) (cks : List Stmt) (pb : SourcePosition × Bool),
        pb ∈ mkChecks code cks → pb.2 = true) ∧
    (∀ (i : Nat) (pb : SourcePosition × Bool), ii.verifier_checks[i]? = some pb →
        (pb.2 = false ↔ FailedCheckE.verifier i ∈ checkRefs oc)) ∧
    (∀ (i : Nat) (pb : SourcePosition × Bool), ii.authority.checks[i]? = some pb →
        (pb.2 = false ↔ FailedCheckE.block 0 i ∈ checkRefs oc)) ∧
    (∀ (j i : Nat) (blk : Block) (pb : SourcePosition × Bool),
        ii.blocks[j]? = some blk → blk.checks[i]? = some pb →
        (pb.2 = false ↔ FailedCheckE.block (j + 1) i ∈ checkRefs oc)) := by
  obtain ⟨ts, vc, pr, vm, hts, hvc, hp, hpol, hrec, htb, hve, hct, hto⟩ :=
    execute_full_eval env q res ii oc h ho
  obtain ⟨_, _, hfa, hfb, _⟩ := tokenStage_props env 0 q.token_blocks ts hts
  refine ⟨fun code cks pb hpb => mkChecks_flag code cks pb hpb, ?_⟩
  rcases reconcileStep_cases _ _ _ _ _ _ _ _ _ hrec with
    ⟨v, hoc2, hap, hvm⟩ | ⟨idx0, pos, hoc2, hpos, ha1, hb1, hvk1, hvm⟩ |
    ⟨c, hoc2, ha1, hb1, hvk1, hvm⟩ | ⟨idx0, pos, hoc2, hpos, ha1, hb1, hvk1, hvm⟩
  · subst hoc2
    obtain ⟨sv, sa, sb, _, _, _, _⟩ := applyFailed_spec _ _ _ _ _ _ _ hap
    refine ⟨?_, ?_, ?_⟩
    · intro i pb hpb
      rw [sv i, Option.map_eq_some'] at hpb
      obtain ⟨pb0, hpb0, hval⟩ := hpb
      exact flag_iff_of_ite pb0 pb _
        (mkChecks_flag vc pr.checks pb0 (List.mem_iff_getElem?.mpr ⟨i, hpb0⟩)) hval
    · intro i pb hpb
      rw [sa i, Option.map_eq_some'] at hpb
      obtain ⟨pb0, hpb0, hval⟩ := hpb
      exact flag_iff_of_ite pb0 pb _
        (hfa pb0 (List.mem_iff_getElem?.mpr ⟨i, hpb0⟩)) hval
    · intro j i blk pb hblk hpb
      have hbind : (ii.blocks[j]?).bind (fun blk : Block => blk.checks[i]?) = some pb := by
        rw [hblk, Option.some_bind, hpb]
      rw [sb j i, Option.map_eq_some'] at hbind
      obtain ⟨pb0, hpb0, hval⟩ := hbind
      rw [Option.bind_eq_some] at hpb0
      obtain ⟨blk0, hblk0, hpb0i⟩ := hpb0
      exact flag_iff_of_ite pb0 pb _
        (hfb blk0 (List.mem_iff_getElem?.mpr ⟨j, hblk0⟩) pb0
          (List.mem_iff_getElem?.mpr ⟨i, hpb0i⟩)) hval
  · subst hoc2
    refine ⟨?_, ?_, ?_⟩
    · intro i pb hpb
      rw [hvk1] at hpb
      have := mkChecks_flag vc pr.checks pb (List.mem_iff_getElem?.mpr ⟨i, hpb⟩)
      simp [checkRefs, this]
    · intro i pb hpb
      rw [ha1] at hpb
      have := hfa pb (List.mem_iff_getElem?.mpr ⟨i, hpb⟩)
      simp [checkRefs, this]
    · intro j i blk pb hblk hpb
      rw [hb1] at hblk
      have := hfb blk (List.mem_iff_getElem?.mpr ⟨j, hblk⟩) pb
        (List.mem_iff_getElem?.mpr ⟨i, hpb⟩)
      simp [checkRefs, this]
  · subst hoc2
    refine ⟨?_, ?_, ?_⟩
    · intro i pb hpb
      rw [hvk1] at hpb
      have := mkChecks_flag vc pr.checks pb (List.mem_iff_getElem?.mpr ⟨i, hpb⟩)
      simp [checkRefs, this]
    · intro i pb hpb
      rw [ha1] at hpb
      have := hfa pb (List.mem_iff_getElem?.mpr ⟨i, hpb⟩)
      simp [checkRefs, this]
    · intro j i blk pb hblk hpb
      rw [hb1] at hblk
      have := hfb blk (List.mem_iff_getElem?.mpr ⟨j, hblk⟩) pb
        (List.mem_iff_getElem?.mpr ⟨i, hpb⟩)
      simp [checkRefs, this]
  · subst hoc2
    refine ⟨?_, ?_, ?_⟩
    · intro i pb hpb
      rw [hvk1] at hpb
      have := mkChecks_flag vc pr.checks pb (List.mem_iff_getElem?.mpr ⟨i, hpb⟩)
      simp [checkRefs, this]
    · intro i pb hpb
      rw [ha1] at hpb
      have := hfa pb (List.mem_iff_getElem?.mpr ⟨i, hpb⟩)
      simp [checkRefs, this]
    · intro j i blk pb hblk hpb
      rw [hb1] at hblk
      have := hfb blk (List.mem_iff_getElem?.mpr ⟨j, hblk⟩) pb
        (List.mem_iff_getElem?.mpr ⟨i, hpb⟩)
      simp [checkRefs, this]

/-- Claim C4: routing of a reported failed check: a verifier-local failure
flips `verifier_checks[check_id]`; a block failure with `block_id = 0` flips
check `check_id` of the authority block; one with `block_id ≥ 1` flips check
`check_id` of extension block `blocks[block_id - 1]`; `setFlag` is the flip
of one entry's pass flag to `false` (out-of-range indices panic). -/
theorem failed_check_routing (a : Block) (bs : List Block)
    (vc : List (SourcePosition × Bool)) (cid bid : Nat) :
    (∀ (l : List (SourcePosition × Bool)) (i : Nat),
        setFlag l i = (l[i]?).map fun pb => l.set i (pb.1, false)) ∧
    applyFailed [FailedCheckE.verifier cid] a bs vc =
      (setFlag vc cid).map (fun vc2 => (a, bs, vc2)) ∧
    applyFailed [FailedCheckE.block 0 cid] a bs vc =
      (setFlag a.checks cid).map (fun ch => (⟨a.code, ch, a.enabled⟩, bs, vc)) ∧
    applyFailed [FailedCheckE.block (bid + 1) cid] a bs vc =
      (bs[bid]?).bind fun b => (setFlag b.checks cid).map fun ch =>
        (a, bs.set bid ⟨b.code, ch, b.enabled⟩, vc) := by
  refine ⟨fun l i => setFlag_eq l i, ?_, ?_, ?_⟩
  · rw [applyFailed_cons_verifier]
    cases setFlag vc cid <;> rfl
  · rw [applyFailed_cons_block0]
    cases setFlag a.checks cid <;> rfl
  · rw [applyFailed_cons_blockS]
    cases bs[bid]? with
    | none => rfl
    | some b =>
      simp only [Option.some_bind]
      cases setFlag b.checks cid <;> rfl

theorem checksAt_nil_of (a a1 : Block) (bs b1 : List Block) (i : Nat)
    (hla : a1.checks.length = a.checks.length)
    (hlb : ∀ j : Nat, (b1[j]?).map (fun blk : Block => blk.checks.length) =
        (bs[j]?).map fun blk : Block => blk.checks.length)
    (hnil : checksAt a bs i = []) : checksAt a1 b1 i = [] := by
  cases i with
  | zero =>
    show a1.checks = []
    rw [← List.length_eq_zero, hla, List.length_eq_zero]
    exact hnil
  | succ m =>
    have hj := hlb m
    cases hb : bs[m]? with
    | none =>
      have hb1 : b1[m]? = none := by
        rw [hb] at hj
        simpa using hj
      simp [checksAt, hb1]
    | some blk =>
      have hblk : blk.checks = [] := by
        have h2 := hnil
        simp only [checksAt, hb] at h2
        exact h2
      rw [hb] at hj
      cases hb1 : b1[m]? with
      | none => simp [checksAt, hb1]
      | some blk1 =>
        rw [hb1] at hj
        simp only [Option.map_some'] at hj
        rw [Option.some.injEq] at hj
        rw [hblk] at hj
        simp only [List.length_nil] at hj
        have hbe : blk1.checks = [] := List.length_eq_zero.mp hj
        simp [checksAt, hb1, hbe]

/-- Claim C6: when a block's text fails to parse, its Editor carries one
positioned ParseError per parser failure, in the order supplied, the
message defaulting to the rendering of the structured code; the block's
check list stays empty (so it never contributes markers); and the pipeline
continues — every block still receives an editor and the document is still
built and rendered. -/
theorem parse_failure_diagnostics (env : Env) (q : BiscuitQuery)
    (res : BiscuitResult) (ii : Internals) (i : Nat) (ti : Text)
    (errs : List PError)
    (hti : q.token_blocks[i]? = some ti)
    (hpe : env.parse ti = ParseOutcome.err errs)
    (h : execute_full env q = some (res, ii)) :
    res.token_blocks[i]? = some ⟨get_parse_errors ti errs, []⟩ ∧
    checksAt ii.authority ii.blocks i = [] ∧
    (get_parse_errors ti errs).length = errs.length ∧
    (∀ (k : Nat) (e : PError), errs[k]? = some e →
        (get_parse_errors ti errs)[k]? =
          some ⟨e.message.getD (renderErrCode e.code), get_position ti e.off e.len⟩) ∧
    res.token_blocks.length = q.token_blocks.length ∧
    (∃ tk : Nat, ii.tokenOpt = some tk ∧ res.token_content = env.printToken tk) := by
  have hlen : (get_parse_errors ti errs).length = errs.length := by
    unfold get_parse_errors
    exact List.length_map _ _
  have hidx : ∀ (k : Nat) (e : PError), errs[k]? = some e →
      (get_parse_errors ti errs)[k]? =
        some ⟨e.message.getD (renderErrCode e.code), get_position ti e.off e.len⟩ := by
    intro k e hk
    unfold get_parse_errors
    rw [List.getElem?_map, hk, Option.map_some']
  obtain ⟨tbs, vcode, qstr⟩ := q
  unfold execute_full execute_with_seed at h
  cases hts : tokenStage env 0 tbs with
  | none => rw [hts] at h; simp at h
  | some ts =>
    rw [hts] at h
    have h2 : verifStage env vcode qstr ts = some (res, ii) := h
    obtain ⟨hleds, hmk, hfa, hfb, herr⟩ := tokenStage_props env 0 tbs ts hts
    obtain ⟨hedi, hcks⟩ := herr i ti errs hti hpe
    have htok : ∃ tk : Nat, ts.tokenOpt = some tk ∧ ts.content = env.printToken tk := by
      cases tbs with
      | nil => simp at hti
      | cons t0 rest => exact tokenStage_token env 0 t0 rest ts hts
    cases vcode with
    | none =>
      rw [verifStage_none, Option.some.injEq, Prod.mk.injEq] at h2
      obtain ⟨h3, h4⟩ := h2
      subst h3
      subst h4
      exact ⟨hedi, hcks, hlen, hidx, hleds, htok⟩
    | some vc =>
      cases hpv : env.parse vc with
      | err verrs =>
        rw [verifStage_err env vc qstr ts verrs hpv, Option.some.injEq,
            Prod.mk.injEq] at h2
        obtain ⟨h3, h4⟩ := h2
        subst h3
        subst h4
        exact ⟨hedi, hcks, hlen, hidx, hleds, htok⟩
      | ok pr =>
        rw [verifStage_ok env vc qstr ts pr hpv] at h2
        simp only [verifOk] at h2
        cases hreg : registerStmts (pr.facts ++ pr.rules ++ pr.checks ++ pr.policies) with
        | none => rw [hreg] at h2; simp at h2
        | some u =>
          rw [hreg, Option.some_bind, Option.map_eq_some'] at h2
          obtain ⟨r, hr, hval⟩ := h2
          obtain ⟨a1, b1, vk1, vm⟩ := r
          rw [Prod.mk.injEq] at hval
          obtain ⟨hres, hii⟩ := hval
          subst hres
          subst hii
          have hnil1 : checksAt a1 b1 i = [] := by
            rcases reconcileStep_cases _ _ _ _ _ _ _ _ _ hr with
              ⟨v, hoc2, hap, hvm⟩ | ⟨idx0, pos, hoc2, hpos, ha1, hb1, hvk1, hvm⟩ |
              ⟨c, hoc2, ha1, hb1, hvk1, hvm⟩ | ⟨idx0, pos, hoc2, hpos, ha1, hb1, hvk1, hvm⟩
            · obtain ⟨_, _, _, _, _, sla, slbs⟩ := applyFailed_spec _ _ _ _ _ _ _ hap
              exact checksAt_nil_of ts.authority a1 ts.blocks b1 i sla slbs hcks
            · rw [ha1, hb1]
              exact hcks
            · rw [ha1, hb1]
              exact hcks
            · rw [ha1, hb1]
              exact hcks
          refine ⟨?_, hnil1, hlen, hidx, ?_, htok⟩
          · show (pushBlocksFrom (pushMarkersAt ts.editors 0 a1.checks) 1 b1)[i]? = _
            rw [pushAll_getElem, hedi, Option.map_some', hnil1]
            simp [markersOf]
          · show (pushBlocksFrom (pushMarkersAt ts.editors 0 a1.checks) 1 b1).length = tbs.length
            rw [pushBlocksFrom_length, pushMarkersAt_length, hleds]

/-- Claim C7: if registering any successfully parsed statement into the
builder or verifier fails, the request is aborted: `execute_inner` panics
(`none`) rather than returning a `BiscuitResult`. -/
theorem registration_failure_aborts (env : Env) (q : BiscuitQuery)
    (h : (∃ (i : Nat) (ti : Text) (pr : SourceResult) (s : Stmt),
            q.token_blocks[i]? = some ti ∧ env.parse ti = ParseOutcome.ok pr ∧
            s ∈ pr.facts ++ pr.rules ++ pr.checks ∧ s.regOk = false) ∨
         (∃ (vc : Text) (pr : SourceResult) (s : Stmt),
            q.verifier_code = some vc ∧ env.parse vc = ParseOutcome.ok pr ∧
            s ∈ pr.facts ++ pr.rules ++ pr.checks ++ pr.policies ∧
            s.regOk = false)) :
    execute_inner env q = none := by
  obtain ⟨tbs, vcode, qstr⟩ := q
  unfold execute_inner execute_full execute_with_seed
  rcases h with ⟨i, ti, pr, s, hti, hp, hs, hreg⟩ | ⟨vc, pr, s, hvc, hp, hs, hreg⟩
  · rw [tokenStage_none env 0 tbs i ti hti (assembleBlock_none env ti pr s hp hs hreg)]
    rfl
  · subst hvc
    cases hts : tokenStage env 0 tbs with
    | none => rfl
    | some ts =>
      show (verifStage env (some vc) qstr ts).map (fun r => r.1) = none
      rw [verifStage_ok env vc qstr ts pr hp]
      simp only [verifOk]
      rw [registerStmts_eq_none _ s hs hreg]
      rfl

/-- Claim C9: `execute_inner` is deterministic across requests: the RNG is
seeded with the fixed constant 0 on every call (`execute_full` is
`execute_with_seed` at seed 0), so equal queries give equal responses and
equal internals — including the root and per-block key material and the
rendered `token_content` they carry. -/
theorem execute_deterministic (env : Env) (q1 q2 : BiscuitQuery)
    (h : q1 = q2) :
    execute_full env q1 = execute_with_seed env 0 q2 ∧
    execute_full env q1 = execute_full env q2 ∧
    execute_inner env q1 = execute_inner env q2 := by
  subst h
  exact ⟨rfl, rfl, rfl⟩

/-- Claim C10: with no verifier code, the response has no verifier editor
and no verifier result, the world and query results are empty, no marker is
ever appended to any block editor, and the query is never executed — the
response does not depend on the query string at all. -/
theorem no_verifier_skips_markers (env : Env) (q : BiscuitQuery)
    (res : BiscuitResult) (ii : Internals)
    (hv : q.verifier_code = none)
    (h : execute_full env q = some (res, ii)) :
    res.verifier_editor = none ∧ res.verifier_result = none ∧
    res.verifier_world = [] ∧ res.query_result = [] ∧
    (∀ ed ∈ res.token_blocks, ed.markers = []) ∧
    (∀ qq : Option Text, execute_full env ⟨q.token_blocks, none, qq⟩ =
        execute_full env q) := by
  obtain ⟨tbs, vcode, qstr⟩ := q
  have hv2 : vcode = none := hv
  subst hv2
  unfold execute_full execute_with_seed at h ⊢
  cases hts : tokenStage env 0 tbs with
  | none => rw [hts] at h; simp at h
  | some ts =>
    rw [hts] at h
    have h2 : verifStage env none qstr ts = some (res, ii) := h
    rw [verifStage_none, Option.some.injEq, Prod.mk.injEq] at h2
    obtain ⟨h3, h4⟩ := h2
    subst h3
    obtain ⟨_, hmk, _, _, _⟩ := tokenStage_props env 0 tbs ts hts
    refine ⟨rfl, rfl, rfl, rfl, hmk, ?_⟩
    intro qq
    rw [hts]
    rfl

/-- Witness for C2 on the `envOk`/`qOk` run (outcome `Allowed 0`): the
authority editor's markers are exactly its check markers. -/
theorem check_markers_appended_witness :
    edOk0.markers = markersOf (checksAt outOk.2.authority outOk.2.blocks 0) :=
  (check_markers_appended envOk qOk outOk.1 outOk.2 (TokenResult.ok 0)
    (by decide) (by decide)).1 0 edOk0 (by decide)

/-- Witness for C3 on the `envFC`/`qOk` run: the twice-referenced verifier
check 0 ends with flag `false`. -/
theorem check_flag_lifecycle_witness :
    pbFC.2 = false ↔ FailedCheckE.verifier 0 ∈ checkRefs ocFC :=
  (check_flag_lifecycle envFC qOk outFC.1 outFC.2 ocFC
    (by decide) (by decide)).2.1 0 pbFC (by decide)

/-- Witness for C5 on the `envFC`/`qOk` run: a `ChecksFailed` outcome leaves
zero policy markers in the verifier editor. -/
theorem policy_marker_spec_witness :
    outFC.1.verifier_editor = some ⟨[], markersOf outFC.2.verifier_checks⟩ :=
  (policy_marker_spec envFC qOk outFC.1 outFC.2 ocFC
    (by decide) (by decide)).2.2.1
    [FailedCheckE.verifier 0, FailedCheckE.verifier 0, FailedCheckE.block 0 0] rfl

/-- Witness for C6 on the `envOk`/`qPE` run: the unparsable authority block
yields exactly its converted parse errors and no markers. -/
theorem parse_failure_diagnostics_witness :
    outPE.1.token_blocks[0]? = some ⟨get_parse_errors [9] [pErr0], []⟩ :=
  (parse_failure_diagnostics envOk qPE outPE.1 outPE.2 0 [9] [pErr0]
    (by decide) (by decide) (by decide)).1

/-- Witness for C7 on the `envOk`/`qRF` run: a block whose fact the builder
rejects aborts the request. -/
theorem registration_failure_aborts_witness :
    execute_inner envOk qRF = none :=
  registration_failure_aborts envOk qRF
    (Or.inl ⟨0, [3], ⟨[⟨0, 1, false⟩], [], [], []⟩, ⟨0, 1, false⟩,
      by decide, by decide, by decide, by decide⟩)

/-- Witness for C9 at the `envOk`/`qOk` run. -/
theorem execute_deterministic_witness :
    execute_full envOk qOk = execute_with_seed envOk 0 qOk ∧
    execute_full envOk qOk = execute_full envOk qOk ∧
    execute_inner envOk qOk = execute_inner envOk qOk :=
  execute_deterministic envOk qOk qOk rfl

/-- Witness for C10 on the `envOk`/`qNV` run (no verifier code, non-empty
query): the response has no verifier editor. -/
theorem no_verifier_skips_markers_witness :
    outNV.1.verifier_editor = none :=
  (no_verifier_skips_markers envOk qNV outNV.1 outNV.2 rfl (by decide)).1

end Biscuit
